import Mathlib

/-!
Verification of the core of the `ray_rust` renderer.

The Rust source is shallowly embedded here: `f64` is modelled as `ℝ`
(so the theorems describe the exact real-arithmetic behaviour of the
algorithms), `Range<f64>` intervals are a lower bound in `ℝ` together
with an upper bound in `WithTop ℝ` (the renderer passes
`f64::INFINITY` as the upper bound of the search interval), and every
random quantity the source draws (`rand_unit_vec`,
`rand::random::<f64>`, `rand_in_unit_disk`) is threaded through as an
explicit input.
-/

noncomputable section

namespace RayRust

open Classical

/-- Embedding of `Vec3<f64>` from `vec3.rs`: a triple of real components. -/
@[ext]
structure Vec3 where
  x : ℝ
  y : ℝ
  z : ℝ

instance : Add Vec3 :=
  ⟨fun a b => ⟨a.x + b.x, a.y + b.y, a.z + b.z⟩⟩

instance : Sub Vec3 :=
  ⟨fun a b => ⟨a.x - b.x, a.y - b.y, a.z - b.z⟩⟩

instance : Neg Vec3 :=
  ⟨fun a => ⟨-a.x, -a.y, -a.z⟩⟩

/-- Scalar multiplication, the `Mul<f64>` impl for `Vec3<f64>`. -/
def Vec3.smul (v : Vec3) (t : ℝ) : Vec3 :=
  ⟨v.x * t, v.y * t, v.z * t⟩

/-- Scalar division, the `Div<f64>` impl for `Vec3<f64>`. -/
def Vec3.divs (v : Vec3) (t : ℝ) : Vec3 :=
  ⟨v.x / t, v.y / t, v.z / t⟩

/-- Embedding of `Vec3::squared_length`. -/
def Vec3.squared_length (v : Vec3) : ℝ :=
  v.x ^ 2 + v.y ^ 2 + v.z ^ 2

/-- Embedding of `Vec3::length`. -/
def Vec3.length (v : Vec3) : ℝ :=
  Real.sqrt v.squared_length

/-- Embedding of `Vec3::unit`. -/
def Vec3.unit (v : Vec3) : Vec3 :=
  v.divs v.length

/-- Embedding of `Vec3::dot`. -/
def Vec3.dot (v w : Vec3) : ℝ :=
  v.x * w.x + v.y * w.y + v.z * w.z

/-- Embedding of `Vec3::mul` (component-wise product). -/
def Vec3.cmul (v w : Vec3) : Vec3 :=
  ⟨v.x * w.x, v.y * w.y, v.z * w.z⟩

/-- Embedding of `Vec3::cross`. -/
def Vec3.cross (v w : Vec3) : Vec3 :=
  ⟨v.y * w.z - v.z * w.y, v.z * w.x - v.x * w.z, v.x * w.y - v.y * w.x⟩

/-- Embedding of `Vec3::near_zero` (`S = 1e-8`). -/
def Vec3.near_zero (v : Vec3) : Prop :=
  |v.x| < 1 / 10 ^ 8 ∧ |v.y| < 1 / 10 ^ 8 ∧ |v.z| < 1 / 10 ^ 8

/-- Embedding of `Vec3::reflect`: `*self - *n * 2.0 * self.dot(n)`. -/
def Vec3.reflect (v n : Vec3) : Vec3 :=
  v - n.smul (2 * v.dot n)

/-- Embedding of `Vec3::refract`. -/
def Vec3.refract (v n : Vec3) (etai_over_etat : ℝ) : Vec3 :=
  let cos_theta := min ((-v).dot n) 1
  let r_out_perp := (v + n.smul cos_theta).smul etai_over_etat
  let r_out_parallel := n.smul (-Real.sqrt |1 - r_out_perp.squared_length|)
  r_out_perp + r_out_parallel

/-- Embedding of `Ray` from `ray.rs`. -/
structure Ray where
  origin : Vec3
  direction : Vec3

/-- Embedding of `Ray::at`. -/
def Ray.at (r : Ray) (t : ℝ) : Vec3 :=
  r.origin + r.direction.smul t

/- Component lemmas for the vector operations. -/

@[simp] theorem Vec3.add_x (v w : Vec3) : (v + w).x = v.x + w.x := rfl

@[simp] theorem Vec3.add_y (v w : Vec3) : (v + w).y = v.y + w.y := rfl

@[simp] theorem Vec3.add_z (v w : Vec3) : (v + w).z = v.z + w.z := rfl

@[simp] theorem Vec3.sub_x (v w : Vec3) : (v - w).x = v.x - w.x := rfl

@[simp] theorem Vec3.sub_y (v w : Vec3) : (v - w).y = v.y - w.y := rfl

@[simp] theorem Vec3.sub_z (v w : Vec3) : (v - w).z = v.z - w.z := rfl

@[simp] theorem Vec3.neg_x (v : Vec3) : (-v).x = -v.x := rfl

@[simp] theorem Vec3.neg_y (v : Vec3) : (-v).y = -v.y := rfl

@[simp] theorem Vec3.neg_z (v : Vec3) : (-v).z = -v.z := rfl

@[simp] theorem Vec3.smul_x (v : Vec3) (t : ℝ) : (v.smul t).x = v.x * t := rfl

@[simp] theorem Vec3.smul_y (v : Vec3) (t : ℝ) : (v.smul t).y = v.y * t := rfl

@[simp] theorem Vec3.smul_z (v : Vec3) (t : ℝ) : (v.smul t).z = v.z * t := rfl

@[simp] theorem Vec3.divs_x (v : Vec3) (t : ℝ) : (v.divs t).x = v.x / t := rfl

@[simp] theorem Vec3.divs_y (v : Vec3) (t : ℝ) : (v.divs t).y = v.y / t := rfl

@[simp] theorem Vec3.divs_z (v : Vec3) (t : ℝ) : (v.divs t).z = v.z / t := rfl

/- Basic algebraic facts about the vector operations. -/

theorem Vec3.dot_comm (v w : Vec3) : v.dot w = w.dot v := by
  simp only [Vec3.dot]; ring

theorem Vec3.neg_dot (v w : Vec3) : (-v).dot w = -(v.dot w) := by
  simp only [Vec3.dot, Vec3.neg_x, Vec3.neg_y, Vec3.neg_z]; ring

theorem Vec3.squared_length_nonneg (v : Vec3) : 0 ≤ v.squared_length := by
  simp only [Vec3.squared_length]; positivity

theorem Vec3.dot_self (v : Vec3) : v.dot v = v.squared_length := by
  simp only [Vec3.dot, Vec3.squared_length]; ring

/-- Cauchy–Schwarz for the embedded dot product. -/
theorem Vec3.dot_sq_le (v w : Vec3) :
    (v.dot w) ^ 2 ≤ v.squared_length * w.squared_length := by
  simp only [Vec3.dot, Vec3.squared_length]
  nlinarith [sq_nonneg (v.x * w.y - v.y * w.x), sq_nonneg (v.x * w.z - v.z * w.x),
    sq_nonneg (v.y * w.z - v.z * w.y)]

/-- Embedding of the `Material` trait objects of `material.rs`: the three
implementors, as a closed variant type with their immutable parameters. -/
inductive Material where
  | lambertian (albedo : Vec3)
  | metal (albedo : Vec3) (fuzz : ℝ)
  | dielectric (ir : ℝ)

/-- Embedding of `HitRecord` from `hittable.rs`. -/
structure HitRecord where
  p : Vec3
  normal : Vec3
  t : ℝ
  front_face : Bool
  material : Material

/-- Embedding of `HitRecord::set_face_normal`. -/
def HitRecord.set_face_normal (rec : HitRecord) (ray : Ray) (outward_normal : Vec3) :
    HitRecord :=
  let ff := ray.direction.dot outward_normal < 0
  { rec with
    front_face := if ff then true else false
    normal := if ff then outward_normal else -outward_normal }

/-- Embedding of `Interval = Range<f64>` membership (`interval.contains(&t)`,
which on `Range` is `start <= t && t < end`).  The upper endpoint lives in
`WithTop ℝ` because `Ray::color` queries with `f64::INFINITY`. -/
def memI (lo : ℝ) (hi : WithTop ℝ) (t : ℝ) : Prop :=
  lo ≤ t ∧ (t : WithTop ℝ) < hi

/-- Embedding of `Sphere` from `hittable.rs` (radius already clamped by
`Sphere::new`; the claims quantify over constructed spheres). -/
structure Sphere where
  center : Vec3
  radius : ℝ
  material : Material

/-- Value `a` in `Sphere::hit`: `ray.direction().squared_length()`. -/
def sphereA (s : Sphere) (r : Ray) : ℝ :=
  r.direction.squared_length

/-- Value `half_b` in `Sphere::hit`: `oc.dot(&ray.direction())` with
`oc = ray.origin() - self.center`. -/
def sphereHalfB (s : Sphere) (r : Ray) : ℝ :=
  (r.origin - s.center).dot r.direction

/-- Value `c` in `Sphere::hit`: `oc.squared_length() - radius * radius`. -/
def sphereC (s : Sphere) (r : Ray) : ℝ :=
  (r.origin - s.center).squared_length - s.radius * s.radius

/-- Value `discriminant` in `Sphere::hit`. -/
def sphereDisc (s : Sphere) (r : Ray) : ℝ :=
  sphereHalfB s r * sphereHalfB s r - sphereA s r * sphereC s r

/-- First candidate root `(-half_b - sqrtd) / a` tried by `Sphere::hit`. -/
def sphereRoot1 (s : Sphere) (r : Ray) : ℝ :=
  (-sphereHalfB s r - Real.sqrt (sphereDisc s r)) / sphereA s r

/-- Second candidate root `(-half_b + sqrtd) / a` tried by `Sphere::hit`. -/
def sphereRoot2 (s : Sphere) (r : Ray) : ℝ :=
  (-sphereHalfB s r + Real.sqrt (sphereDisc s r)) / sphereA s r

/-- HitRecord built at parameter `root` by `Sphere::hit`: the record is
constructed with `front_face = false` and then `set_face_normal` is applied
with the outward normal `(ray.at(root) - center) / radius`. -/
def mkHit (s : Sphere) (r : Ray) (root : ℝ) : HitRecord :=
  let outward_normal := (r.at root - s.center).divs s.radius
  HitRecord.set_face_normal
    ⟨r.at root, outward_normal, root, false, s.material⟩ r outward_normal

/-- Embedding of `Sphere::hit`: reject on negative discriminant, then try the
smaller root, then the larger, rejecting each if outside the interval. -/
def Sphere.hit (s : Sphere) (r : Ray) (lo : ℝ) (hi : WithTop ℝ) : Option HitRecord :=
  if sphereDisc s r < 0 then none
  else if memI lo hi (sphereRoot1 s r) then some (mkHit s r (sphereRoot1 s r))
  else if memI lo hi (sphereRoot2 s r) then some (mkHit s r (sphereRoot2 s r))
  else none

/-- Scene collections of this repository hold spheres (the only `Hittable`
implementor besides the list itself). -/
abbrev HittableList := List Sphere

/-- Loop body of `HittableList::hit`: iterate the objects, keeping the
closest-so-far upper bound and the best hit record. -/
def hitAux (r : Ray) (lo : ℝ) :
    List Sphere → WithTop ℝ → Option HitRecord → Option HitRecord
  | [], _, res => res
  | o :: os, closest, res =>
    match o.hit r lo closest with
    | some rec => hitAux r lo os (rec.t : WithTop ℝ) (some rec)
    | none => hitAux r lo os closest res

/-- Embedding of `HittableList::hit`: `closest_so_far` starts at
`interval.end` and the accumulated result starts at `None`. -/
def HittableList.hit (objects : HittableList) (r : Ray) (lo : ℝ) (hi : WithTop ℝ) :
    Option HitRecord :=
  hitAux r lo objects hi none

/-- Modelled from the spec: reference nearest-hit computation that tests each
object individually over the *original* interval and keeps the hit of minimum
`t`, ties broken toward earlier objects in the list.  Used as the comparison
point for the refinement claim about `HittableList::hit`. -/
def referenceHit (r : Ray) (lo : ℝ) (hi : WithTop ℝ) : List Sphere → Option HitRecord
  | [] => none
  | o :: os =>
    match o.hit r lo hi, referenceHit r lo hi os with
    | none, res => res
    | some rec, none => some rec
    | some rec, some rec2 => if rec.t ≤ rec2.t then some rec else some rec2

/-- Random quantities one `scatter` call may draw: the result of
`vec3::rand_unit_vec()` and of `rand::random::<f64>()`. -/
structure RandDraw where
  unit_vec : Vec3
  uniform : ℝ

/-- Embedding of `Dielectric::reflectance` (Schlick approximation). -/
def reflectance (cosine ref_idx : ℝ) : ℝ :=
  let r0 := ((1 - ref_idx) / (1 + ref_idx)) ^ 2
  r0 + (1 - r0) * (1 - cosine) ^ 5

/-- Scattered direction built by `Metal::scatter`:
`ray.direction().unit().reflect(&normal) + rand_unit_vec() * fuzz`. -/
def metalScatterDir (ray : Ray) (rec : HitRecord) (fuzz : ℝ) (rv : Vec3) : Vec3 :=
  (ray.direction.unit.reflect rec.normal) + rv.smul fuzz

/-- Embedding of the three `Material::scatter` implementations from
`material.rs`, with the random draws passed explicitly. -/
def Material.scatter (m : Material) (ray : Ray) (rec : HitRecord) (rnd : RandDraw) :
    Option (Vec3 × Ray) :=
  match m with
  | .lambertian albedo =>
    let sd := rec.normal + rnd.unit_vec
    let scatter_direction := if sd.near_zero then rec.normal else sd
    some (albedo, ⟨rec.p, scatter_direction⟩)
  | .metal albedo fuzz =>
    let scattered : Ray := ⟨rec.p, metalScatterDir ray rec fuzz rnd.unit_vec⟩
    if scattered.direction.dot rec.normal > 0 then some (albedo, scattered) else none
  | .dielectric ir =>
    let etai_over_etat := if rec.front_face then 1 / ir else ir
    let unit_direction := ray.direction.unit
    let cos_theta := min ((-unit_direction).dot rec.normal) 1
    let sin_theta := Real.sqrt (1 - cos_theta ^ 2)
    let cannot_refract := etai_over_etat * sin_theta > 1
    let direction :=
      if cannot_refract ∨ reflectance cos_theta etai_over_etat > rnd.uniform then
        unit_direction.reflect rec.normal
      else
        unit_direction.refract rec.normal etai_over_etat
    some (⟨1, 1, 1⟩, ⟨rec.p, direction⟩)

/-- Background gradient returned by `Ray::color` on a miss. -/
def background (r : Ray) : Vec3 :=
  let unit_dir := r.direction.unit
  let a := 1 / 2 * (unit_dir.y + 1)
  (Vec3.mk 1 1 1).smul (1 - a) + (Vec3.mk (1 / 2) (7 / 10) 1).smul a

/-- Loop body of `Ray::color` once the depth cutoff has been passed: query
the scene over `[0.001, ∞)`, scatter at the hit, and continue with the given
recursive continuation; black on absorption, background gradient on a miss. -/
def colorBody (world : HittableList) (draw : RandDraw) (r : Ray)
    (recurse : Ray → Vec3) : Vec3 :=
  match world.hit r (1 / 1000) ⊤ with
  | some rec =>
    match rec.material.scatter r rec draw with
    | some (attenuation, scattered) => attenuation.cmul (recurse scattered)
    | none => ⟨0, 0, 0⟩
  | none => background r

/-- Recursion core of `Ray::color`, indexed by the number of remaining
recursion levels (`depth.toNat`); the random draws are supplied as a map from
remaining-depth to the draws consumed at that level. -/
def rayColorNat (world : HittableList) (rnd : ℕ → RandDraw) : Ray → ℕ → Vec3
  | _, 0 => ⟨0, 0, 0⟩
  | r, n + 1 => colorBody world (rnd n) r (fun scattered => rayColorNat world rnd scattered n)

/-- Embedding of `Ray::color` with its `i32` depth argument: `depth <= 0`
returns black, otherwise one level of intersection + scattering followed by a
recursive call at `depth - 1`. -/
def Ray.color (r : Ray) (world : HittableList) (rnd : ℕ → RandDraw) (depth : ℤ) : Vec3 :=
  rayColorNat world rnd r depth.toNat

/-- Embedding of `Ray::color` with an explicit count of nested recursive
calls allowed (`fuel`), returning black when the fuel runs out before the
depth cutoff, an absorption, or a miss terminates the branch. -/
def rayColorFuel (world : HittableList) (rnd : ℕ → RandDraw) : ℕ → Ray → ℤ → Vec3
  | 0, _, _ => ⟨0, 0, 0⟩
  | fuel + 1, r, depth =>
    if depth ≤ 0 then ⟨0, 0, 0⟩
    else
      colorBody world (rnd (depth - 1).toNat) r
        (fun scattered => rayColorFuel world rnd fuel scattered (depth - 1))

/-- Embedding of the `Camera` state from `camera.rs`. -/
structure Camera where
  img_width : ℤ
  img_height : ℤ
  center : Vec3
  pixel00_loc : Vec3
  pixel_delta_u : Vec3
  pixel_delta_v : Vec3
  sample_size : ℤ
  max_depth : ℤ
  defocus_disk_u : Vec3
  defocus_disk_v : Vec3
  defocus_angle : ℝ

/-- Embedding of `f64::to_radians`. -/
def toRadians (x : ℝ) : ℝ :=
  x * Real.pi / 180

/-- Truncating float-to-int cast (`as i32` in Rust rounds toward zero). -/
def truncToInt (x : ℝ) : ℤ :=
  if 0 ≤ x then ⌊x⌋ else ⌈x⌉

/-- Embedding of `Camera::new`. -/
def Camera.new (aspect_ratio : ℝ) (img_width sample_size : ℤ) (vfov : ℝ)
    (lookfrom lookat vup : Vec3) (defocus_angle focus_dist : ℝ) : Camera :=
  let img_height := max (truncToInt ((img_width : ℝ) / aspect_ratio)) 1
  let center := lookfrom
  let theta := toRadians vfov
  let h := Real.tan (theta / 2)
  let viewport_height := 2 * h * focus_dist
  let viewport_width := viewport_height * ((img_width : ℝ) / (img_height : ℝ))
  let w := (lookfrom - lookat).unit
  let u := (vup.cross w).unit
  let v := w.cross u
  let viewport_u := u.smul viewport_width
  let viewport_v := (-v).smul viewport_height
  let pixel_delta_u := viewport_u.divs (img_width : ℝ)
  let pixel_delta_v := viewport_v.divs (img_height : ℝ)
  let viewport_upper_left :=
    center - w.smul focus_dist - viewport_u.divs 2 - viewport_v.divs 2
  let pixel00_loc := viewport_upper_left + (pixel_delta_u + pixel_delta_v).smul (1 / 2)
  let defocus_radius := Real.tan (toRadians (defocus_angle / 2))
  ⟨img_width, img_height, center, pixel00_loc, pixel_delta_u, pixel_delta_v,
    sample_size, 50, u.smul defocus_radius, v.smul defocus_radius, defocus_angle⟩

/-- Random quantities one `Camera::get_ray` call may draw: the two uniform
`random::<f64>()` samples and the `rand_in_unit_disk()` point. -/
structure CamRand where
  r1 : ℝ
  r2 : ℝ
  disk : Vec3

/-- Embedding of `Camera::get_ray`. -/
def Camera.get_ray (cam : Camera) (i j : ℤ) (rnd : CamRand) : Ray :=
  let u := rnd.r1 - 1 / 2
  let v := rnd.r2 - 1 / 2
  let sample := cam.pixel00_loc + cam.pixel_delta_u.smul ((i : ℝ) + u)
    + cam.pixel_delta_v.smul ((j : ℝ) + v)
  let origin :=
    if cam.defocus_angle > 0 then
      cam.center + cam.defocus_disk_u.smul rnd.disk.x + cam.defocus_disk_v.smul rnd.disk.y
    else cam.center
  let direction := sample - origin
  ⟨origin, direction.unit⟩

/- Example inputs used by the concrete witness instantiations below. -/

/-- Example ray aimed straight down the negative z axis. -/
def exRay : Ray := ⟨⟨0, 0, 0⟩, ⟨0, 0, -1⟩⟩

/-- Example hit record with unit normal `(0,0,1)`. -/
def exRec : HitRecord := ⟨⟨0, 0, 0⟩, ⟨0, 0, 1⟩, 1, true, .metal ⟨1, 1, 1⟩ 0⟩

/-- Example random draw. -/
def exRnd : RandDraw := ⟨⟨1, 0, 0⟩, 0⟩

/-- Example unit sphere at the origin. -/
def exSphere : Sphere := ⟨⟨0, 0, 0⟩, 1, .lambertian ⟨1 / 2, 1 / 2, 1 / 2⟩⟩

/-- Example ray hitting `exSphere` head on from `z = -2`. -/
def exRay2 : Ray := ⟨⟨0, 0, -2⟩, ⟨0, 0, 1⟩⟩

/-- The hit record `Sphere::hit` produces for `exSphere` and `exRay2`. -/
def exHit : HitRecord :=
  ⟨⟨0, 0, -1⟩, ⟨0, 0, -1⟩, 1, true, .lambertian ⟨1 / 2, 1 / 2, 1 / 2⟩⟩

/-- C8: `Ray::color` with `depth = 0` (and any `depth ≤ 0`) returns black,
the zero color, for every ray, scene and randomness — the depth cutoff fires
before the scene is queried. -/
theorem ray_color_depth_nonpos_black (r : Ray) (world : HittableList)
    (rnd : ℕ → RandDraw) (depth : ℤ) (h : depth ≤ 0) :
    r.color world rnd depth = ⟨0, 0, 0⟩ := by
  unfold Ray.color
  have h0 : depth.toNat = 0 := by omega
  rw [h0]
  simp [rayColorNat]

theorem ray_color_depth_nonpos_black_witness :
    (0 : ℤ) ≤ 0 ∧
      Ray.color ⟨⟨0, 0, 0⟩, ⟨0, 0, 1⟩⟩ [] (fun _ => ⟨⟨1, 0, 0⟩, 0⟩) 0 = ⟨0, 0, 0⟩ :=
  ⟨le_refl 0, ray_color_depth_nonpos_black _ _ _ 0 (le_refl 0)⟩

/-- C7: a camera constructed with `defocus_angle = 0` produces, for every
pixel index and every random draw, primary rays whose origin equals the
camera center (which `Camera::new` sets to `lookfrom`); no defocus-disk
jitter is applied. -/
theorem camera_defocus_zero_ray_origin (ar : ℝ) (iw ss : ℤ) (vfov : ℝ)
    (lookfrom lookat vup : Vec3) (fd : ℝ) (i j : ℤ) (rnd : CamRand) :
    ((Camera.new ar iw ss vfov lookfrom lookat vup 0 fd).get_ray i j rnd).origin =
        (Camera.new ar iw ss vfov lookfrom lookat vup 0 fd).center ∧
      ((Camera.new ar iw ss vfov lookfrom lookat vup 0 fd).get_ray i j rnd).origin =
        lookfrom := by
  have hda : (Camera.new ar iw ss vfov lookfrom lookat vup 0 fd).defocus_angle = 0 := rfl
  have hc : (Camera.new ar iw ss vfov lookfrom lookat vup 0 fd).center = lookfrom := rfl
  constructor
  · simp [Camera.get_ray, hda]
  · simp [Camera.get_ray, hda, hc]

/-- C9: `Metal::scatter` with `fuzz = 0` builds exactly the mirror-reflected
direction of the unit incoming direction, and (for a unit normal) that
reflection has the same dot product with the normal, in absolute value, as
the negated unit incoming direction — exactly, over real arithmetic. -/
theorem metal_fuzz_zero_mirror (ray : Ray) (rec : HitRecord) (rv : Vec3)
    (hn : rec.normal.dot rec.normal = 1) :
    metalScatterDir ray rec 0 rv = ray.direction.unit.reflect rec.normal ∧
      |(metalScatterDir ray rec 0 rv).dot rec.normal| =
        |(-ray.direction.unit).dot rec.normal| := by
  have h0 : metalScatterDir ray rec 0 rv = ray.direction.unit.reflect rec.normal := by
    unfold metalScatterDir
    ext <;> simp
  refine ⟨h0, ?_⟩
  rw [h0]
  have h1 : (ray.direction.unit.reflect rec.normal).dot rec.normal =
      (-ray.direction.unit).dot rec.normal := by
    have hexp : (ray.direction.unit.reflect rec.normal).dot rec.normal =
        ray.direction.unit.dot rec.normal -
          2 * ray.direction.unit.dot rec.normal * (rec.normal.dot rec.normal) := by
      simp [Vec3.reflect, Vec3.dot]
      ring
    rw [hexp, hn, Vec3.neg_dot]
    ring
  rw [h1]

theorem metal_fuzz_zero_mirror_witness :
    exRec.normal.dot exRec.normal = 1 ∧
      (metalScatterDir exRay exRec 0 ⟨1, 0, 0⟩ =
          exRay.direction.unit.reflect exRec.normal ∧
        |(metalScatterDir exRay exRec 0 ⟨1, 0, 0⟩).dot exRec.normal| =
          |(-exRay.direction.unit).dot exRec.normal|) := by
  have hn : exRec.normal.dot exRec.normal = 1 := by
    norm_num [exRec, Vec3.dot]
  exact ⟨hn, metal_fuzz_zero_mirror exRay exRec ⟨1, 0, 0⟩ hn⟩

/-- C5: `Metal::scatter` returns `None` precisely when the fuzz-perturbed
scattered direction has non-positive dot product with the hit normal; in
every other case it returns `Some` with attenuation equal to the albedo and
a scattered ray originating at the hit point. -/
theorem metal_scatter_absorb_iff (albedo : Vec3) (fuzz : ℝ) (ray : Ray)
    (rec : HitRecord) (rnd : RandDraw) :
    ((Material.metal albedo fuzz).scatter ray rec rnd = none ↔
        (metalScatterDir ray rec fuzz rnd.unit_vec).dot rec.normal ≤ 0) ∧
      (0 < (metalScatterDir ray rec fuzz rnd.unit_vec).dot rec.normal →
        (Material.metal albedo fuzz).scatter ray rec rnd =
          some (albedo, ⟨rec.p, metalScatterDir ray rec fuzz rnd.unit_vec⟩)) := by
  simp only [Material.scatter]
  split_ifs with h
  · constructor
    · simp only [iff_iff_implies_and_implies]
      constructor
      · intro hsome
        exact absurd hsome (by simp)
      · intro hle
        linarith
    · intro _
      rfl
  · push_neg at h
    constructor
    · simp [h]
    · intro hpos
      linarith

theorem metal_scatter_absorb_iff_witness :
    0 < (metalScatterDir exRay exRec 0 exRnd.unit_vec).dot exRec.normal ∧
      (Material.metal ⟨1, 1, 1⟩ 0).scatter exRay exRec exRnd =
        some (⟨1, 1, 1⟩, ⟨exRec.p, metalScatterDir exRay exRec 0 exRnd.unit_vec⟩) := by
  have hpos : 0 < (metalScatterDir exRay exRec 0 exRnd.unit_vec).dot exRec.normal := by
    norm_num [metalScatterDir, exRay, exRec, exRnd, Vec3.unit, Vec3.length,
      Vec3.squared_length, Vec3.reflect, Vec3.dot, Real.sqrt_one]
  exact ⟨hpos, (metal_scatter_absorb_iff ⟨1, 1, 1⟩ 0 exRay exRec exRnd).2 hpos⟩

/-- Congruence of the `Ray::color` loop body in its recursive continuation. -/
theorem colorBody_congr (world : HittableList) (draw : RandDraw) (r : Ray)
    (f g : Ray → Vec3) (h : ∀ scattered, f scattered = g scattered) :
    colorBody world draw r f = colorBody world draw r g := by
  unfold colorBody
  cases world.hit r (1 / 1000) ⊤ with
  | none => rfl
  | some rec =>
    show (match rec.material.scatter r rec draw with
      | some (attenuation, scattered) => attenuation.cmul (f scattered)
      | none => (⟨0, 0, 0⟩ : Vec3)) =
      (match rec.material.scatter r rec draw with
      | some (attenuation, scattered) => attenuation.cmul (g scattered)
      | none => (⟨0, 0, 0⟩ : Vec3))
    cases rec.material.scatter r rec draw with
    | none => rfl
    | some pr =>
      cases pr with
      | mk attenuation scattered => simp [h]

/-- C6: the recursive evaluator `Ray::color` terminates within `max(depth,0)`
nested recursive calls: running the fuel-instrumented evaluator with any fuel
of at least `depth.toNat = max(depth,0)` computes exactly `Ray::color`, so
the recursion is well-founded on the depth argument and bottoms out at the
depth cutoff, an absorption, or a miss within that bound. -/
theorem ray_color_fuel_bound (world : HittableList) (rnd : ℕ → RandDraw)
    (fuel : ℕ) (r : Ray) (depth : ℤ) (h : depth.toNat ≤ fuel) :
    rayColorFuel world rnd fuel r depth = r.color world rnd depth := by
  induction fuel generalizing r depth with
  | zero =>
    have h0 : depth.toNat = 0 := by omega
    unfold Ray.color
    rw [h0]
    simp [rayColorFuel, rayColorNat]
  | succ n ih =>
    by_cases hd : depth ≤ 0
    · have h0 : depth.toNat = 0 := by omega
      unfold Ray.color
      rw [h0]
      simp [rayColorFuel, hd, rayColorNat]
    · push_neg at hd
      have h1 : depth.toNat = (depth - 1).toNat + 1 := by omega
      have h2 : (depth - 1).toNat ≤ n := by omega
      unfold Ray.color
      rw [h1, rayColorFuel, if_neg (by omega), rayColorNat]
      apply colorBody_congr
      intro scattered
      have hrec := ih scattered (depth - 1) h2
      unfold Ray.color at hrec
      exact hrec

theorem ray_color_fuel_bound_witness :
    (2 : ℤ).toNat ≤ 3 ∧
      rayColorFuel [exSphere] (fun _ => exRnd) 3 exRay2 2 =
        Ray.color exRay2 [exSphere] (fun _ => exRnd) 2 :=
  ⟨by omega, ray_color_fuel_bound [exSphere] (fun _ => exRnd) 3 exRay2 2 (by omega)⟩

/-- An interval whose upper end does not exceed its lower end contains no
parameter value at all. -/
theorem memI_empty {lo : ℝ} {hi : WithTop ℝ} (h : hi ≤ (lo : WithTop ℝ)) (t : ℝ) :
    ¬ memI lo hi t := by
  rintro ⟨h1, h2⟩
  have h3 : (t : WithTop ℝ) < (lo : WithTop ℝ) := lt_of_lt_of_le h2 h
  have h4 : t < lo := WithTop.coe_lt_coe.mp h3
  linarith

/-- `Sphere::hit` over an empty interval returns `None`. -/
theorem sphere_hit_empty_interval (s : Sphere) (r : Ray) {lo : ℝ} {hi : WithTop ℝ}
    (h : hi ≤ (lo : WithTop ℝ)) : s.hit r lo hi = none := by
  unfold Sphere.hit
  split_ifs with h1 h2 h3
  · rfl
  · exact absurd h2 (memI_empty h _)
  · exact absurd h3 (memI_empty h _)
  · rfl

/-- The `HittableList::hit` loop never changes its accumulator when the
shrinking interval is empty. -/
theorem hitAux_empty_interval (r : Ray) (lo : ℝ) (os : List Sphere) :
    ∀ (closest : WithTop ℝ) (res : Option HitRecord),
      closest ≤ (lo : WithTop ℝ) → hitAux r lo os closest res = res := by
  induction os with
  | nil =>
    intro closest res _
    rfl
  | cons o os ih =>
    intro closest res hc
    have hnone : o.hit r lo closest = none := sphere_hit_empty_interval o r hc
    simp [hitAux, hnone, ih closest res hc]

/-- C10: on an empty half-open interval (`interval.end ≤ interval.start`)
both `Sphere::hit` and `HittableList::hit` return `None` for every ray, and
`HittableList::hit` on an empty object list returns `None` for every ray and
every interval. -/
theorem empty_interval_hit_none (s : Sphere) (w : HittableList) (r : Ray)
    (lo : ℝ) (hi : WithTop ℝ) :
    (hi ≤ (lo : WithTop ℝ) → s.hit r lo hi = none ∧ w.hit r lo hi = none) ∧
      HittableList.hit [] r lo hi = none := by
  refine ⟨fun h => ⟨sphere_hit_empty_interval s r h, ?_⟩, rfl⟩
  unfold HittableList.hit
  exact hitAux_empty_interval r lo w hi none h

theorem empty_interval_hit_none_witness :
    ((0 : ℝ) : WithTop ℝ) ≤ ((1 : ℝ) : WithTop ℝ) ∧
      (Sphere.hit exSphere exRay2 1 ((0 : ℝ) : WithTop ℝ) = none ∧
        HittableList.hit [exSphere] exRay2 1 ((0 : ℝ) : WithTop ℝ) = none) :=
  ⟨WithTop.coe_le_coe.mpr (by norm_num),
    (empty_interval_hit_none exSphere [exSphere] exRay2 1 ((0 : ℝ) : WithTop ℝ)).1
      (WithTop.coe_le_coe.mpr (by norm_num))⟩

/-- The parameter stored in the record built by `Sphere::hit` is the chosen
root. -/
theorem mkHit_t (s : Sphere) (r : Ray) (root : ℝ) : (mkHit s r root).t = root := rfl

/-- Case analysis on a successful `Sphere::hit`. -/
theorem sphere_hit_cases (s : Sphere) (r : Ray) (lo : ℝ) (hi : WithTop ℝ)
    (rec : HitRecord) (h : s.hit r lo hi = some rec) :
    ¬ sphereDisc s r < 0 ∧
      ((rec = mkHit s r (sphereRoot1 s r) ∧ memI lo hi (sphereRoot1 s r)) ∨
        (rec = mkHit s r (sphereRoot2 s r) ∧ ¬ memI lo hi (sphereRoot1 s r) ∧
          memI lo hi (sphereRoot2 s r))) := by
  unfold Sphere.hit at h
  split_ifs at h with h1 h2 h3
  · exact ⟨h1, Or.inl ⟨(Option.some.inj h).symm, h2⟩⟩
  · exact ⟨h1, Or.inr ⟨(Option.some.inj h).symm, h2, h3⟩⟩

/-- Orientation facts about every record built by `Sphere::hit`. -/
theorem mkHit_orientation (s : Sphere) (r : Ray) (root : ℝ) :
    (mkHit s r root).normal.dot r.direction ≤ 0 ∧
      ((mkHit s r root).front_face = true ↔
        r.direction.dot ((r.at (mkHit s r root).t - s.center).divs s.radius) < 0) := by
  rw [mkHit_t]
  unfold mkHit HitRecord.set_face_normal
  by_cases hff : r.direction.dot ((r.at root - s.center).divs s.radius) < 0
  · constructor
    · simp only [if_pos hff]
      rw [Vec3.dot_comm]
      exact le_of_lt hff
    · simp [hff]
  · constructor
    · simp only [if_neg hff]
      rw [Vec3.neg_dot, Vec3.dot_comm]
      push_neg at hff
      linarith
    · simp [hff]

/-- C4: every record returned by `Sphere::hit` carries a normal facing
against the incoming ray (`dot(normal, ray.direction) ≤ 0`), and its
`front_face` flag is set exactly when the geometric outward normal
`(hit_point - center) / radius` already pointed against the ray, i.e. did
not need flipping. -/
theorem sphere_hit_normal_orientation (s : Sphere) (r : Ray) (lo : ℝ)
    (hi : WithTop ℝ) (rec : HitRecord) (h : s.hit r lo hi = some rec) :
    rec.normal.dot r.direction ≤ 0 ∧
      (rec.front_face = true ↔
        r.direction.dot ((r.at rec.t - s.center).divs s.radius) < 0) := by
  rcases (sphere_hit_cases s r lo hi rec h).2 with ⟨hrec, _⟩ | ⟨hrec, _, _⟩ <;>
    (subst hrec; exact mkHit_orientation s r _)

/-- Concrete evaluation of `Sphere::hit` on the example head-on ray. -/
theorem exSphere_hit_eval :
    exSphere.hit exRay2 0 ((10 : ℝ) : WithTop ℝ) = some exHit := by
  have hdisc : sphereDisc exSphere exRay2 = 1 := by
    norm_num [sphereDisc, sphereA, sphereHalfB, sphereC, exSphere, exRay2,
      Vec3.squared_length, Vec3.dot]
  have hroot1 : sphereRoot1 exSphere exRay2 = 1 := by
    unfold sphereRoot1
    rw [hdisc, Real.sqrt_one]
    norm_num [sphereA, sphereHalfB, exSphere, exRay2, Vec3.squared_length, Vec3.dot]
  have hmem : memI 0 ((10 : ℝ) : WithTop ℝ) (sphereRoot1 exSphere exRay2) := by
    rw [hroot1]
    exact ⟨by norm_num, by exact_mod_cast WithTop.coe_lt_coe.mpr (by norm_num)⟩
  have hout : (exRay2.at 1 - exSphere.center).divs exSphere.radius = ⟨0, 0, -1⟩ := by
    ext <;> norm_num [exRay2, exSphere, Ray.at]
  have hffc : exRay2.direction.dot ⟨0, 0, -1⟩ < 0 := by
    norm_num [exRay2, Vec3.dot]
  have hp : exRay2.at 1 = (⟨0, 0, -1⟩ : Vec3) := by
    ext <;> norm_num [exRay2, Ray.at]
  unfold Sphere.hit
  rw [if_neg (by rw [hdisc]; norm_num), if_pos hmem, hroot1]
  simp only [mkHit, HitRecord.set_face_normal]
  rw [hout, if_pos hffc, if_pos hffc, hp]
  rfl

theorem sphere_hit_normal_orientation_witness :
    exSphere.hit exRay2 0 ((10 : ℝ) : WithTop ℝ) = some exHit ∧
      (exHit.normal.dot exRay2.direction ≤ 0 ∧
        (exHit.front_face = true ↔
          exRay2.direction.dot
            ((exRay2.at exHit.t - exSphere.center).divs exSphere.radius) < 0)) :=
  ⟨exSphere_hit_eval,
    sphere_hit_normal_orientation exSphere exRay2 0 ((10 : ℝ) : WithTop ℝ) exHit
      exSphere_hit_eval⟩

/-- Sum of the two candidate roots tried by `Sphere::hit`. -/
theorem sphereRoot_sum (s : Sphere) (r : Ray) :
    sphereRoot1 s r + sphereRoot2 s r = -2 * sphereHalfB s r / sphereA s r := by
  unfold sphereRoot1 sphereRoot2
  ring

/-- Product of the two candidate roots tried by `Sphere::hit`. -/
theorem sphereRoot_prod (s : Sphere) (r : Ray) (hd : 0 ≤ sphereDisc s r) :
    sphereRoot1 s r * sphereRoot2 s r = sphereC s r / (sphereA s r * sphereA s r) *
      sphereA s r := by
  have hs : Real.sqrt (sphereDisc s r) ^ 2 = sphereDisc s r := Real.sq_sqrt hd
  unfold sphereRoot1 sphereRoot2
  rw [div_mul_div_comm]
  have hnum : (-sphereHalfB s r - Real.sqrt (sphereDisc s r)) *
      (-sphereHalfB s r + Real.sqrt (sphereDisc s r)) =
      sphereHalfB s r * sphereHalfB s r - Real.sqrt (sphereDisc s r) ^ 2 := by ring
  rw [hnum, hs]
  unfold sphereDisc
  ring

/-- Factorization of the `Sphere::hit` quadratic through its two candidate
roots (valid for nonzero leading coefficient and nonnegative discriminant). -/
theorem quad_factor (s : Sphere) (r : Ray) (ha : 0 < sphereA s r)
    (hd : 0 ≤ sphereDisc s r) (t : ℝ) :
    sphereA s r * t ^ 2 + 2 * sphereHalfB s r * t + sphereC s r =
      sphereA s r * (t - sphereRoot1 s r) * (t - sphereRoot2 s r) := by
  have hane : sphereA s r ≠ 0 := ne_of_gt ha
  have hexp : sphereA s r * (t - sphereRoot1 s r) * (t - sphereRoot2 s r) =
      sphereA s r * t ^ 2 - sphereA s r * (sphereRoot1 s r + sphereRoot2 s r) * t +
        sphereA s r * (sphereRoot1 s r * sphereRoot2 s r) := by ring
  rw [hexp, sphereRoot_sum, sphereRoot_prod s r hd]
  field_simp
  ring

/-- With a nonzero leading coefficient and nonnegative discriminant, the real
roots of the quadratic solved by `Sphere::hit` are exactly the two candidate
values it tries. -/
theorem quad_root_iff (s : Sphere) (r : Ray) (ha : 0 < sphereA s r)
    (hd : 0 ≤ sphereDisc s r) (t : ℝ) :
    sphereA s r * t ^ 2 + 2 * sphereHalfB s r * t + sphereC s r = 0 ↔
      t = sphereRoot1 s r ∨ t = sphereRoot2 s r := by
  have hane : sphereA s r ≠ 0 := ne_of_gt ha
  rw [quad_factor s r ha hd t]
  constructor
  · intro h0
    rcases mul_eq_zero.mp h0 with h1 | h2
    · rcases mul_eq_zero.mp h1 with h3 | h4
      · exact absurd h3 hane
      · exact Or.inl (sub_eq_zero.mp h4)
    · exact Or.inr (sub_eq_zero.mp h2)
  · rintro (rfl | rfl) <;> ring

/-- With a negative discriminant the `Sphere::hit` quadratic has no real
root at all. -/
theorem no_root_of_disc_neg (s : Sphere) (r : Ray) (ha : 0 < sphereA s r)
    (hd : sphereDisc s r < 0) (t : ℝ) :
    sphereA s r * t ^ 2 + 2 * sphereHalfB s r * t + sphereC s r ≠ 0 := by
  intro ht
  unfold sphereDisc at hd
  nlinarith [sq_nonneg (sphereA s r * t + sphereHalfB s r), ht, ha]

/-- C3: for a ray with nonzero direction, `Sphere::hit` returns `None`
exactly when the quadratic `a·t² + 2·half_b·t + c = 0` has no real root in
the queried interval; on success the stored `t` is the smaller candidate
root when that root lies inside the interval and the larger one otherwise,
and it always lies inside the queried interval. -/
theorem sphere_hit_quadratic_charact (s : Sphere) (r : Ray) (lo : ℝ)
    (hi : WithTop ℝ) (ha : 0 < sphereA s r) :
    (s.hit r lo hi = none ↔
        ∀ t : ℝ, sphereA s r * t ^ 2 + 2 * sphereHalfB s r * t + sphereC s r = 0 →
          ¬ memI lo hi t) ∧
      ∀ rec : HitRecord, s.hit r lo hi = some rec →
        rec.t = (if memI lo hi (sphereRoot1 s r) then sphereRoot1 s r
            else sphereRoot2 s r) ∧
          memI lo hi rec.t := by
  constructor
  · by_cases hd : sphereDisc s r < 0
    · constructor
      · intro _ t ht _
        exact no_root_of_disc_neg s r ha hd t ht
      · intro _
        unfold Sphere.hit
        rw [if_pos hd]
    · push_neg at hd
      constructor
      · intro hnone t ht hmem
        unfold Sphere.hit at hnone
        rw [if_neg (not_lt.mpr hd)] at hnone
        rcases (quad_root_iff s r ha hd t).mp ht with rfl | rfl
        · by_cases h1 : memI lo hi (sphereRoot1 s r)
          · rw [if_pos h1] at hnone
            cases hnone
          · exact h1 hmem
        · by_cases h1 : memI lo hi (sphereRoot1 s r)
          · rw [if_pos h1] at hnone
            cases hnone
          · rw [if_neg h1, if_pos hmem] at hnone
            cases hnone
      · intro hno
        unfold Sphere.hit
        rw [if_neg (not_lt.mpr hd)]
        have h1 : ¬ memI lo hi (sphereRoot1 s r) :=
          fun hm => hno _ ((quad_root_iff s r ha hd _).mpr (Or.inl rfl)) hm
        have h2 : ¬ memI lo hi (sphereRoot2 s r) :=
          fun hm => hno _ ((quad_root_iff s r ha hd _).mpr (Or.inr rfl)) hm
        rw [if_neg h1, if_neg h2]
  · intro rec h
    rcases (sphere_hit_cases s r lo hi rec h).2 with ⟨hrec, hm⟩ | ⟨hrec, hm1, hm2⟩
    · subst hrec
      rw [mkHit_t, if_pos hm]
      exact ⟨rfl, hm⟩
    · subst hrec
      rw [mkHit_t, if_neg hm1]
      exact ⟨rfl, hm2⟩

theorem sphere_hit_quadratic_charact_witness :
    0 < sphereA exSphere exRay2 ∧
      ((exSphere.hit exRay2 0 ((10 : ℝ) : WithTop ℝ) = none ↔
          ∀ t : ℝ, sphereA exSphere exRay2 * t ^ 2 +
              2 * sphereHalfB exSphere exRay2 * t + sphereC exSphere exRay2 = 0 →
            ¬ memI 0 ((10 : ℝ) : WithTop ℝ) t) ∧
        ∀ rec : HitRecord, exSphere.hit exRay2 0 ((10 : ℝ) : WithTop ℝ) = some rec →
          rec.t = (if memI 0 ((10 : ℝ) : WithTop ℝ) (sphereRoot1 exSphere exRay2) then
              sphereRoot1 exSphere exRay2
            else sphereRoot2 exSphere exRay2) ∧
            memI 0 ((10 : ℝ) : WithTop ℝ) rec.t) := by
  have ha : 0 < sphereA exSphere exRay2 := by
    norm_num [sphereA, exRay2, Vec3.squared_length]
  exact ⟨ha, sphere_hit_quadratic_charact exSphere exRay2 0 _ ha⟩

/-- Interval membership is monotone in the upper endpoint. -/
theorem memI_mono {lo t : ℝ} {hi hi' : WithTop ℝ} (hle : hi' ≤ hi) :
    memI lo hi' t → memI lo hi t :=
  fun h => ⟨h.1, lt_of_lt_of_le h.2 hle⟩

/-- The first candidate root tried by `Sphere::hit` never exceeds the
second. -/
theorem sphereRoot_le (s : Sphere) (r : Ray) : sphereRoot1 s r ≤ sphereRoot2 s r := by
  rcases eq_or_lt_of_le (Vec3.squared_length_nonneg r.direction) with hzero | hpos
  · unfold sphereRoot1 sphereRoot2 sphereA
    rw [← hzero]
    simp
  · have ha : 0 < sphereA s r := hpos
    unfold sphereRoot1 sphereRoot2
    exact (div_le_div_iff_of_pos_right ha).mpr
      (by linarith [Real.sqrt_nonneg (sphereDisc s r)])

/-- The parameter of a successful `Sphere::hit` lies in the queried
interval. -/
theorem sphere_hit_mem (s : Sphere) (r : Ray) (lo : ℝ) (hi : WithTop ℝ)
    (rec : HitRecord) (h : s.hit r lo hi = some rec) : memI lo hi rec.t := by
  rcases (sphere_hit_cases s r lo hi rec h).2 with ⟨hrec, hm⟩ | ⟨hrec, _, hm⟩ <;>
    (subst hrec; rw [mkHit_t]; exact hm)

/-- Shrinking the upper endpoint preserves a miss of `Sphere::hit`. -/
theorem sphere_hit_shrink_none (s : Sphere) (r : Ray) (lo : ℝ) {hi hi' : WithTop ℝ}
    (hle : hi' ≤ hi) (h : s.hit r lo hi = none) : s.hit r lo hi' = none := by
  unfold Sphere.hit at h ⊢
  split_ifs at h with h1 h2 h3
  · rw [if_pos h1]
  · rw [if_neg h1, if_neg (fun hm => h2 (memI_mono hle hm)),
      if_neg (fun hm => h3 (memI_mono hle hm))]

/-- Shrinking the upper endpoint keeps a `Sphere::hit` result exactly when
its parameter still fits, and turns it into a miss otherwise. -/
theorem sphere_hit_shrink_some (s : Sphere) (r : Ray) (lo : ℝ) {hi hi' : WithTop ℝ}
    (hle : hi' ≤ hi) (rec : HitRecord) (h : s.hit r lo hi = some rec) :
    s.hit r lo hi' = if ((rec.t : ℝ) : WithTop ℝ) < hi' then some rec else none := by
  have hr12 := sphereRoot_le s r
  obtain ⟨hd, hcases⟩ := sphere_hit_cases s r lo hi rec h
  unfold Sphere.hit
  rw [if_neg hd]
  rcases hcases with ⟨hrec, hm⟩ | ⟨hrec, hm1, hm2⟩
  · subst hrec
    rw [mkHit_t]
    by_cases hlt : ((sphereRoot1 s r : ℝ) : WithTop ℝ) < hi'
    · have hmem' : memI lo hi' (sphereRoot1 s r) := ⟨hm.1, hlt⟩
      rw [if_pos hmem', if_pos hlt]
    · rw [if_neg hlt]
      have hn1 : ¬ memI lo hi' (sphereRoot1 s r) := fun hmem => hlt hmem.2
      have hn2 : ¬ memI lo hi' (sphereRoot2 s r) := fun hmem =>
        hlt (lt_of_le_of_lt (WithTop.coe_le_coe.mpr hr12) hmem.2)
      rw [if_neg hn1, if_neg hn2]
  · subst hrec
    rw [mkHit_t]
    have hn1 : ¬ memI lo hi' (sphereRoot1 s r) := fun hmem => hm1 (memI_mono hle hmem)
    by_cases hlt : ((sphereRoot2 s r : ℝ) : WithTop ℝ) < hi'
    · have hmem' : memI lo hi' (sphereRoot2 s r) := ⟨hm2.1, hlt⟩
      rw [if_neg hn1, if_pos hmem', if_pos hlt]
    · have hn2 : ¬ memI lo hi' (sphereRoot2 s r) := fun hmem => hlt hmem.2
      rw [if_neg hn1, if_neg hn2, if_neg hlt]

/-- Shrinking the upper endpoint filters the reference nearest-hit result:
the minimum over the tighter interval is the old minimum when it still fits
and nothing otherwise. -/
theorem referenceHit_shrink (r : Ray) (lo : ℝ) {hi hi' : WithTop ℝ} (hle : hi' ≤ hi) :
    ∀ os : List Sphere,
      referenceHit r lo hi' os =
        match referenceHit r lo hi os with
        | none => none
        | some m => if ((m.t : ℝ) : WithTop ℝ) < hi' then some m else none := by
  intro os
  induction os with
  | nil => rfl
  | cons o os ih =>
    cases hhead : o.hit r lo hi with
    | none =>
      have hh' : o.hit r lo hi' = none := sphere_hit_shrink_none o r lo hle hhead
      cases htail : referenceHit r lo hi os with
      | none =>
        have ht' : referenceHit r lo hi' os = none := by rw [ih, htail]
        simp [referenceHit, hh', hhead, htail, ht']
      | some m =>
        have ht' : referenceHit r lo hi' os =
            if ((m.t : ℝ) : WithTop ℝ) < hi' then some m else none := by rw [ih, htail]
        by_cases hm : ((m.t : ℝ) : WithTop ℝ) < hi' <;>
          simp [referenceHit, hh', hhead, htail, ht', hm]
    | some a =>
      have hh' : o.hit r lo hi' =
          if ((a.t : ℝ) : WithTop ℝ) < hi' then some a else none :=
        sphere_hit_shrink_some o r lo hle a hhead
      cases htail : referenceHit r lo hi os with
      | none =>
        have ht' : referenceHit r lo hi' os = none := by rw [ih, htail]
        by_cases hat : ((a.t : ℝ) : WithTop ℝ) < hi' <;>
          simp [referenceHit, hh', hhead, htail, ht', hat]
      | some b =>
        have ht' : referenceHit r lo hi' os =
            if ((b.t : ℝ) : WithTop ℝ) < hi' then some b else none := by rw [ih, htail]
        by_cases hat : ((a.t : ℝ) : WithTop ℝ) < hi' <;>
          by_cases hbt : ((b.t : ℝ) : WithTop ℝ) < hi'
        · by_cases hab : a.t ≤ b.t <;>
            simp [referenceHit, hh', hhead, htail, ht', hat, hbt, hab]
        · have hab : a.t ≤ b.t := by
            have h1 : ((a.t : ℝ) : WithTop ℝ) < ((b.t : ℝ) : WithTop ℝ) :=
              lt_of_lt_of_le hat (not_lt.mp hbt)
            exact le_of_lt (WithTop.coe_lt_coe.mp h1)
          simp [referenceHit, hh', hhead, htail, ht', hat, hbt, hab]
        · have hab : ¬ a.t ≤ b.t := by
            have h1 : ((b.t : ℝ) : WithTop ℝ) < ((a.t : ℝ) : WithTop ℝ) :=
              lt_of_lt_of_le hbt (not_lt.mp hat)
            exact not_le.mpr (WithTop.coe_lt_coe.mp h1)
          simp [referenceHit, hh', hhead, htail, ht', hat, hbt, hab]
        · by_cases hab : a.t ≤ b.t <;>
            simp [referenceHit, hh', hhead, htail, ht', hat, hbt, hab]

/-- Invariant of the `HittableList::hit` loop: with the interval already
tightened to `closest` and accumulator `res`, the loop returns the reference
result over the remaining objects and the tightened interval, falling back
to the accumulator when those objects produce nothing. -/
theorem hitAux_eq_reference (r : Ray) (lo : ℝ) :
    ∀ (os : List Sphere) (closest : WithTop ℝ) (res : Option HitRecord),
      hitAux r lo os closest res =
        match referenceHit r lo closest os with
        | some m => some m
        | none => res := by
  intro os
  induction os with
  | nil =>
    intro closest res
    rfl
  | cons o os ih =>
    intro closest res
    cases hhead : o.hit r lo closest with
    | none =>
      simp only [hitAux, hhead]
      rw [ih]
      simp only [referenceHit, hhead]
    | some rec1 =>
      have hmem := sphere_hit_mem o r lo closest rec1 hhead
      have hlt : ((rec1.t : ℝ) : WithTop ℝ) < closest := hmem.2
      have hshr := referenceHit_shrink r lo (le_of_lt hlt) os
      simp only [hitAux, hhead]
      rw [ih, hshr]
      simp only [referenceHit, hhead]
      cases htail : referenceHit r lo closest os with
      | none => simp
      | some m =>
        by_cases hmt : ((m.t : ℝ) : WithTop ℝ) < ((rec1.t : ℝ) : WithTop ℝ)
        · have hmt' : ¬ rec1.t ≤ m.t := not_le.mpr (WithTop.coe_lt_coe.mp hmt)
          simp [hmt, hmt']
        · have hmt' : rec1.t ≤ m.t := le_of_not_lt fun hc => hmt (WithTop.coe_lt_coe.mpr hc)
          simp [hmt, hmt']

/-- The reference nearest-hit computation misses exactly when every object
individually misses over the interval. -/
theorem referenceHit_none_iff (r : Ray) (lo : ℝ) (hi : WithTop ℝ) :
    ∀ os : List Sphere,
      (referenceHit r lo hi os = none ↔ ∀ o ∈ os, o.hit r lo hi = none) := by
  intro os
  induction os with
  | nil => simp [referenceHit]
  | cons o os ih =>
    cases hhead : o.hit r lo hi with
    | none =>
      cases htail : referenceHit r lo hi os with
      | none =>
        simp only [referenceHit, hhead, htail]
        constructor
        · intro _ o' ho'
          rcases List.mem_cons.mp ho' with rfl | hmem
          · exact hhead
          · exact (ih.mp htail) o' hmem
        · intro _
          trivial
      | some b =>
        simp only [referenceHit, hhead, htail]
        constructor
        · intro hcontra
          exact Option.noConfusion hcontra
        · intro hall
          have hnone := (ih.mpr fun o' ho' => hall o' (List.mem_cons_of_mem o ho'))
          rw [hnone] at htail
          exact Option.noConfusion htail
    | some a =>
      have hne : ¬ ∀ o' ∈ o :: os, o'.hit r lo hi = none := by
        intro hall
        have := hall o (List.mem_cons_self o os)
        rw [this] at hhead
        exact Option.noConfusion hhead
      cases htail : referenceHit r lo hi os with
      | none =>
        simp only [referenceHit, hhead, htail]
        constructor
        · intro hcontra
          exact Option.noConfusion hcontra
        · intro hall
          exact absurd hall hne
      | some b =>
        simp only [referenceHit, hhead, htail]
        constructor
        · intro hcontra
          split_ifs at hcontra
        · intro hall
          exact absurd hall hne

/-- C2: the single-pass `HittableList::hit`, which tightens the interval's
upper bound to the closest accepted hit so far, computes exactly the
reference nearest hit obtained by testing each object individually over the
original interval and keeping the minimum-`t` hit (ties toward earlier
objects); in particular it returns `None` exactly when no object is hit
anywhere in the original interval. -/
theorem hittableList_hit_eq_referenceHit (w : HittableList) (r : Ray) (lo : ℝ)
    (hi : WithTop ℝ) :
    w.hit r lo hi = referenceHit r lo hi w ∧
      (w.hit r lo hi = none ↔ ∀ o ∈ w, o.hit r lo hi = none) := by
  have h1 : w.hit r lo hi = referenceHit r lo hi w := by
    unfold HittableList.hit
    rw [hitAux_eq_reference]
    cases href : referenceHit r lo hi w <;> rfl
  refine ⟨h1, ?_⟩
  rw [h1]
  exact referenceHit_none_iff r lo hi w

/-- Example hit record for the dielectric claims: head-on hit, unit normal
facing the incoming ray. -/
def exDielRec : HitRecord := ⟨⟨0, 0, 0⟩, ⟨0, 0, -1⟩, 1, true, .dielectric 1⟩

/-- Example ray for the dielectric claims. -/
def exDielRay : Ray := ⟨⟨0, 0, 0⟩, ⟨0, 0, 1⟩⟩

/-- C1 counterexample: `Dielectric::scatter` with `ior = 1` does NOT always
leave the direction unchanged.  At oblique incidence (unit incoming
direction `(4/5, -3/5, 0)`, unit normal `(0, 1, 0)`, so `cosθ = 3/5`) the
Schlick reflectance is `(2/5)^5 = 32/3125 > 0`; for the legal random draw
`0` the reflect branch is taken and the scattered direction is the mirror
image `(4/5, 3/5, 0)`, which differs from the incoming unit direction. -/
theorem dielectric_unit_ratio_reflects_bends :
    (Material.dielectric 1).scatter ⟨⟨0, 0, 0⟩, ⟨4 / 5, -3 / 5, 0⟩⟩
        ⟨⟨0, 0, 0⟩, ⟨0, 1, 0⟩, 1, true, .dielectric 1⟩ ⟨⟨1, 0, 0⟩, 0⟩ =
      some (⟨1, 1, 1⟩, ⟨⟨0, 0, 0⟩, ⟨4 / 5, 3 / 5, 0⟩⟩) ∧
    Vec3.mk (4 / 5) (3 / 5) 0 ≠
      (Ray.mk ⟨0, 0, 0⟩ ⟨4 / 5, -3 / 5, 0⟩).direction.unit := by
  have hsq : (Vec3.mk (4 / 5) (-3 / 5) 0).squared_length = 1 := by
    norm_num [Vec3.squared_length]
  have hunit : (Vec3.mk ((4 : ℝ) / 5) (-3 / 5) 0).unit = ⟨4 / 5, -3 / 5, 0⟩ := by
    unfold Vec3.unit Vec3.length
    rw [hsq, Real.sqrt_one]
    ext <;> norm_num
  constructor
  · have hcos : (-(Vec3.mk ((4 : ℝ) / 5) (-3 / 5) 0)).dot ⟨0, 1, 0⟩ = 3 / 5 := by
      norm_num [Vec3.dot]
    have hmin : min ((3 : ℝ) / 5) 1 = 3 / 5 := by norm_num
    have hsin : Real.sqrt (1 - ((3 : ℝ) / 5) ^ 2) = 4 / 5 := by
      rw [show (1 - ((3 : ℝ) / 5) ^ 2) = ((4 : ℝ) / 5) ^ 2 by norm_num]
      exact Real.sqrt_sq (by norm_num)
    have hreflect : (Vec3.mk ((4 : ℝ) / 5) (-3 / 5) 0).reflect ⟨0, 1, 0⟩ =
        ⟨4 / 5, 3 / 5, 0⟩ := by
      ext <;> norm_num [Vec3.reflect, Vec3.dot]
    simp only [Material.scatter, hunit, hcos, hmin, hsin, hreflect]
    norm_num [reflectance]
  · rw [hunit]
    intro hcontra
    have := congrArg Vec3.y hcontra
    norm_num at this

/-- C1 amended: with `ior = 1` the refractive ratio is `1` in both the
front-face and back-face cases and total internal reflection is impossible,
so whenever the uniform random draw is at least the Schlick term
`(1 - cosθ)^5` the refract branch runs and returns the incoming unit
direction unchanged; draws below that term take the reflect branch instead
(which bends the ray at oblique incidence, as the counterexample shows). -/
theorem dielectric_unit_ratio_refract_unchanged (ray : Ray) (rec : HitRecord)
    (rnd : RandDraw) (hn : rec.normal.dot rec.normal = 1)
    (hu : ray.direction.unit.squared_length = 1)
    (hd : ray.direction.unit.dot rec.normal ≤ 0)
    (hr : (1 - min ((-ray.direction.unit).dot rec.normal) 1) ^ 5 ≤ rnd.uniform) :
    (Material.dielectric 1).scatter ray rec rnd =
      some (⟨1, 1, 1⟩, ⟨rec.p, ray.direction.unit⟩) := by
  set u := ray.direction.unit with hu_def
  set n := rec.normal with hn_def
  have hnsq : n.squared_length = 1 := by rw [← Vec3.dot_self, hn]
  have hcs : (u.dot n) ^ 2 ≤ 1 := by
    have h1 := Vec3.dot_sq_le u n
    rw [hu, hnsq] at h1
    linarith
  have hun_le : -(u.dot n) ≤ 1 := by nlinarith [hcs]
  have hcos_min : min ((-u).dot n) 1 = -(u.dot n) := by
    rw [Vec3.neg_dot]
    exact min_eq_left hun_le
  have hc0 : 0 ≤ -(u.dot n) := by linarith
  have hsin_le : Real.sqrt (1 - (-(u.dot n)) ^ 2) ≤ 1 :=
    Real.sqrt_le_one.mpr (by nlinarith [hcs])
  have hratio : (if rec.front_face then 1 / (1 : ℝ) else 1) = 1 := by
    cases rec.front_face <;> norm_num
  have hrefl : reflectance (-(u.dot n)) 1 = (1 - -(u.dot n)) ^ 5 := by
    unfold reflectance
    norm_num
  have hcond : ¬ ((1 : ℝ) * Real.sqrt (1 - (-(u.dot n)) ^ 2) > 1 ∨
      reflectance (-(u.dot n)) 1 > rnd.uniform) := by
    push_neg
    constructor
    · rw [one_mul]
      exact hsin_le
    · rw [hrefl]
      rw [hcos_min] at hr
      exact hr
  have hux : u.x ^ 2 + u.y ^ 2 + u.z ^ 2 = 1 := hu
  have hnx : n.x * n.x + n.y * n.y + n.z * n.z = 1 := hn
  have hdx : u.x * n.x + u.y * n.y + u.z * n.z = -(-(u.dot n)) := by
    unfold Vec3.dot
    ring
  have hperp : ((u + n.smul (-(u.dot n))).smul 1).squared_length =
      1 - (-(u.dot n)) ^ 2 := by
    simp only [Vec3.squared_length, Vec3.smul_x, Vec3.smul_y, Vec3.smul_z,
      Vec3.add_x, Vec3.add_y, Vec3.add_z]
    linear_combination hux + (2 * -(u.dot n)) * hdx + ((-(u.dot n)) ^ 2) * hnx
  have hsqrt : Real.sqrt |1 - ((u + n.smul (-(u.dot n))).smul 1).squared_length| =
      -(u.dot n) := by
    rw [hperp, show (1 : ℝ) - (1 - (-(u.dot n)) ^ 2) = (-(u.dot n)) ^ 2 by ring,
      abs_of_nonneg (sq_nonneg _)]
    exact Real.sqrt_sq hc0
  have hrefr : u.refract n 1 = u := by
    simp only [Vec3.refract, hcos_min, hsqrt]
    ext <;> simp
  simp only [Material.scatter, hratio, hcos_min, if_neg hcond, hrefr]

theorem dielectric_unit_ratio_refract_unchanged_witness :
    (exDielRec.normal.dot exDielRec.normal = 1 ∧
      exDielRay.direction.unit.squared_length = 1 ∧
      exDielRay.direction.unit.dot exDielRec.normal ≤ 0 ∧
      (1 - min ((-exDielRay.direction.unit).dot exDielRec.normal) 1) ^ 5 ≤
        (RandDraw.mk ⟨1, 0, 0⟩ 0).uniform) ∧
    (Material.dielectric 1).scatter exDielRay exDielRec ⟨⟨1, 0, 0⟩, 0⟩ =
      some (⟨1, 1, 1⟩, ⟨exDielRec.p, exDielRay.direction.unit⟩) := by
  have hunit : exDielRay.direction.unit = ⟨0, 0, 1⟩ := by
    have hsq : (Vec3.mk (0 : ℝ) 0 1).squared_length = 1 := by
      norm_num [Vec3.squared_length]
    show (Vec3.mk (0 : ℝ) 0 1).unit = ⟨0, 0, 1⟩
    unfold Vec3.unit Vec3.length
    rw [hsq, Real.sqrt_one]
    ext <;> norm_num
  have h1 : exDielRec.normal.dot exDielRec.normal = 1 := by
    norm_num [exDielRec, Vec3.dot]
  have h2 : exDielRay.direction.unit.squared_length = 1 := by
    rw [hunit]
    norm_num [Vec3.squared_length]
  have h3 : exDielRay.direction.unit.dot exDielRec.normal ≤ 0 := by
    rw [hunit]
    norm_num [exDielRec, Vec3.dot]
  have h4 : (1 - min ((-exDielRay.direction.unit).dot exDielRec.normal) 1) ^ 5 ≤
      (RandDraw.mk ⟨1, 0, 0⟩ 0).uniform := by
    rw [hunit]
    norm_num [exDielRec, Vec3.dot]
  exact ⟨⟨h1, h2, h3, h4⟩,
    dielectric_unit_ratio_refract_unchanged exDielRay exDielRec ⟨⟨1, 0, 0⟩, 0⟩ h1 h2 h3 h4⟩

end RayRust
